import Mathlib

/-!
# Verification of the meat-check capture-to-match core

Shallow embedding of the algorithmic core of the `meat-check` repository:
text normalization, keyword/fuzzy product matching (`src/lib/match.ts`),
weight extraction (`parseKg` in `src/components/ScanModal.tsx`), the
confirm/rescan session transitions of the scan modal, the single-flight
OCR worker manager (`src/lib/tesseractWorker.ts`), and the stability
detector described by the specification (no implementation of it is
present in the sources).

Strings are modelled as `List Char`; JavaScript number arithmetic on the
relevant values (edit-distance ratios, weights) is modelled exactly with
`ℚ` (every comparison the code performs — against 0.75, 0.05 and 50 — is
exact in binary floating point at the magnitudes that occur, so the
rational model agrees with the float semantics).  `toUpperCase` and
Unicode NFD decomposition are modelled on the character repertoire the
program works with (ASCII plus the Finnish/Swedish letters Ä/Ö/Å named by
the catalog and the source comments); every other code point is left
unchanged by the model.
-/

attribute [local semireducible] Rat.add Rat.mul Rat.inv Rat.sub

set_option maxRecDepth 40000

/-! ## Character-level model -/

/-- Model of the JavaScript `\s` class / `String.prototype.trim` whitespace set. -/
def isWs (c : Char) : Bool :=
  c.toNat = 9 || c.toNat = 10 || c.toNat = 11 || c.toNat = 12 || c.toNat = 13 ||
  c.toNat = 32 || c.toNat = 160 || c.toNat = 0x1680 ||
  (0x2000 ≤ c.toNat && c.toNat ≤ 0x200A) || c.toNat = 0x2028 || c.toNat = 0x2029 ||
  c.toNat = 0x202F || c.toNat = 0x205F || c.toNat = 0x3000 || c.toNat = 0xFEFF

/-- The combining diacritical marks block U+0300–U+036F that
`normalizeText` strips after NFD decomposition. -/
def isMark (c : Char) : Bool := 0x300 ≤ c.toNat && c.toNat ≤ 0x36F

/-- Model of `String.prototype.toUpperCase`, on the repertoire the program
uses: ASCII letters and ä/ö/å; all other code points are unchanged. -/
def jsToUpper : Char → Char
  | 'a' => 'A' | 'b' => 'B' | 'c' => 'C' | 'd' => 'D' | 'e' => 'E' | 'f' => 'F'
  | 'g' => 'G' | 'h' => 'H' | 'i' => 'I' | 'j' => 'J' | 'k' => 'K' | 'l' => 'L'
  | 'm' => 'M' | 'n' => 'N' | 'o' => 'O' | 'p' => 'P' | 'q' => 'Q' | 'r' => 'R'
  | 's' => 'S' | 't' => 'T' | 'u' => 'U' | 'v' => 'V' | 'w' => 'W' | 'x' => 'X'
  | 'y' => 'Y' | 'z' => 'Z' | 'ä' => 'Ä' | 'ö' => 'Ö' | 'å' => 'Å'
  | c => c

/-- Model of Unicode NFD (`.normalize("NFD")`) per character, on the same
repertoire: precomposed Ä/Ö/Å (either case) decompose into their base
letter followed by a combining mark; everything else is NFD-inert. -/
def nfdChar : Char → List Char
  | 'Ä' => ['A', '̈'] | 'ä' => ['a', '̈']
  | 'Ö' => ['O', '̈'] | 'ö' => ['o', '̈']
  | 'Å' => ['A', '̊'] | 'å' => ['a', '̊']
  | c => [c]

/-! ## `normalizeText` (src/lib/match.ts lines 3–11)

`text.trim().toUpperCase().normalize("NFD").replace(/[̀-ͯ]/g, "").replace(/\s+/g, " ")` -/

/-- JS `String.prototype.trim`, left half. -/
def trimLeft (l : List Char) : List Char := l.dropWhile isWs

/-- JS `String.prototype.trim`, right half. -/
def trimRight (l : List Char) : List Char := (l.reverse.dropWhile isWs).reverse

/-- JS `String.prototype.trim`. -/
def trimWs (l : List Char) : List Char := trimRight (trimLeft l)

/-- Uppercasing step `.toUpperCase()`. -/
def upperStr (l : List Char) : List Char := l.map jsToUpper

/-- Decomposition step `.normalize("NFD")`. -/
def nfdStr (l : List Char) : List Char := l.flatMap nfdChar

/-- Mark-stripping step `.replace(/[̀-ͯ]/g, "")`. -/
def stripMarks (l : List Char) : List Char := l.filter (fun c => !isMark c)

/-- Whitespace collapse `.replace(/\s+/g, " ")`: every maximal run of whitespace becomes one
space.  The boolean accumulator records whether the previous character was
part of a whitespace run that has already been replaced. -/
def collapseAux : Bool → List Char → List Char
  | _, [] => []
  | prevWs, c :: rest =>
    if isWs c then
      if prevWs then collapseAux true rest else ' ' :: collapseAux true rest
    else c :: collapseAux false rest

/-- Whitespace collapse `.replace(/\s+/g, " ")`. -/
def collapseWs (l : List Char) : List Char := collapseAux false l

/-- Function `normalizeText` from `src/lib/match.ts`: trim, uppercase, NFD-decompose,
strip combining marks, collapse whitespace runs — in that order. -/
def normalizeTextL (l : List Char) : List Char :=
  collapseWs (stripMarks (nfdStr (upperStr (trimWs l))))

/-- Function `normalizeText`, wrapped on `String`. -/
def normalizeText (s : String) : String := ⟨normalizeTextL s.data⟩

/-! ## Product catalog (src/lib/products.ts) -/

/-- Record type `Product` from `src/lib/products.ts`. -/
structure Product where
  id : String
  name : String
  keywords : List String
deriving DecidableEq, Repr

/-- Catalog `PRODUCTS` from `src/lib/products.ts`. -/
def PRODUCTS : List Product :=
  [⟨"10550", "SIANPÄÄ 新鲜猪头", ["SIANPÄÄ"]⟩,
   ⟨"10567", "SIAN MAKSA 新鲜猪肝", ["MAKSA"]⟩,
   ⟨"10568", "PORSAAN SYDÄN 新鲜猪心", ["SYDÄN"]⟩,
   ⟨"10569", "SIAN KIELI 新鲜猪舌", ["KIELI"]⟩,
   ⟨"10570", "SORKKA 新鲜猪蹄", ["SORKKA"]⟩,
   ⟨"10572", "S-KYLKI LUUTON 新鲜五花肉", ["LUUTON"]⟩,
   ⟨"10574", "新鲜猪肘 SIAN ETUPOTKA", ["ETUPOTKA"]⟩,
   ⟨"10584", "新鲜筒骨LUUT II (Jalkalui LUUT", ["Jalkalui"]⟩,
   ⟨"10585", "Possaan kylkirusto", ["kylkirusto"]⟩,
   ⟨"10794", "Etupään Rusto /kg | 新鲜猪骨", ["Etupää"]⟩,
   ⟨"10795", "Porsaan Kolmioluu /kg | 猪肋排", ["Kolmioluu"]⟩,
   ⟨"10797", "S-Rankaluu  /kg | 猪脊骨", ["Rankaluu"]⟩]

/-! ## `matchProduct` (src/lib/match.ts lines 13–86) -/

/-- JS `String.prototype.includes`: `containsSub hay needle` is true when
`needle` occurs contiguously in `hay` (the empty needle occurs in every
string). -/
def containsSub : List Char → List Char → Bool
  | [], needle => needle.isEmpty
  | c :: t, needle => needle.isPrefixOf (c :: t) || containsSub t needle

/-- Inner recursion of the edit-distance recurrence (structural in the
second string; `levXs` is the distance from the tail of the first). -/
def levAux (x : Char) (xs : List Char) (levXs : List Char → Nat) : List Char → Nat
  | [] => xs.length + 1
  | y :: ys =>
    min (min (levXs (y :: ys) + 1) (levAux x xs levXs ys + 1))
        (levXs ys + (if x = y then 0 else 1))

/-- Function `levenshtein` from `src/lib/match.ts`: the Wagner–Fischer
dynamic program `dp[i][j] = min(dp[i-1][j]+1, dp[i][j-1]+1,
dp[i-1][j-1]+cost)` with borders `dp[i][0]=i`, `dp[0][j]=j`, written as
the recurrence the table tabulates (deletion, insertion, substitution). -/
def levenshteinDist : List Char → List Char → Nat
  | [], b => b.length
  | x :: xs, b => levAux x xs (levenshteinDist xs) b

/-- Function `similarity` from `src/lib/match.ts`: `1 - dist/maxLen`, with two empty
strings similar at 1. -/
def similarity (a b : List Char) : ℚ :=
  if a.length = 0 && b.length = 0 then 1
  else 1 - (levenshteinDist a b : ℚ) / ((max a.length b.length : ℕ) : ℚ)

/-- Step A body: does any of the product's normalized keywords occur in the
normalized text (`product.keywords.some(k => normalized.includes(normalizeText(k)))`)? -/
def keywordHit (normalized : List Char) (p : Product) : Bool :=
  p.keywords.any (fun k => containsSub normalized (normalizeTextL k.data))

/-- Step A of `matchProduct`: first product (in catalog order) with a
keyword hit. -/
def exactPass (normalized : List Char) : List Product → Option Product
  | [] => Option.none
  | p :: ps => if keywordHit normalized p then some p else exactPass normalized ps

/-- Token split `normalized.split(" ").filter(Boolean)`. -/
def tokenize (normalized : List Char) : List (List Char) :=
  (normalized.splitOn ' ').filter (fun t => !t.isEmpty)

/-- Score of one keyword target: best similarity against the full
normalized text and against every token (`Math.max(...scores)`). -/
def keywordScore (normalized : List Char) (tokens : List (List Char))
    (target : List Char) : ℚ :=
  (tokens.map (fun t => similarity target t)).foldl max (similarity target normalized)

/-- Step B inner loop over one product's keywords: update the running
`(bestProduct, bestScore)` pair whenever `score > bestScore`. -/
def fuzzyStep (normalized : List Char) (tokens : List (List Char))
    (acc : Option Product × ℚ) (p : Product) : Option Product × ℚ :=
  p.keywords.foldl (fun a k =>
    if a.2 < keywordScore normalized tokens (normalizeTextL k.data) then
      (some p, keywordScore normalized tokens (normalizeTextL k.data))
    else a) acc

/-- Step B of `matchProduct`: fold the update over the whole catalog,
starting from `(null, 0)`. -/
def fuzzyBest (normalized : List Char) (tokens : List (List Char))
    (products : List Product) : Option Product × ℚ :=
  products.foldl (fuzzyStep normalized tokens) (Option.none, 0)

/-- Constant `FUZZY_THRESHOLD = 0.75`. -/
def FUZZY_THRESHOLD : ℚ := 3/4

/-- Method tag of a match result. -/
inductive MatchMethod
  | keyword
  | fuzzy
  | none
deriving DecidableEq, Repr

/-- Result record of `matchProduct`. -/
structure MatchResult where
  product : Option Product
  method : MatchMethod
deriving DecidableEq, Repr

/-- The result of `matchProduct` when Step A found nothing: return the
best fuzzy candidate if its score reaches the threshold, else none. -/
def fuzzyResult (text : String) (products : List Product) : MatchResult :=
  match (fuzzyBest (normalizeTextL text.data) (tokenize (normalizeTextL text.data)) products).1 with
  | some p =>
    if FUZZY_THRESHOLD ≤
        (fuzzyBest (normalizeTextL text.data) (tokenize (normalizeTextL text.data)) products).2 then
      ⟨some p, MatchMethod.fuzzy⟩
    else ⟨Option.none, MatchMethod.none⟩
  | Option.none => ⟨Option.none, MatchMethod.none⟩

/-- Function `matchProduct` from `src/lib/match.ts`: exact keyword pass first,
fuzzy pass only when it found nothing. -/
def matchProduct (ocrText : String) (products : List Product) : MatchResult :=
  match exactPass (normalizeTextL ocrText.data) products with
  | some p => ⟨some p, MatchMethod.keyword⟩
  | Option.none => fuzzyResult ocrText products

/-! ## `parseKg` (src/components/ScanModal.tsx lines 145–151)

`normalizeText(text).replace(/,/g, ".")` matched against
`/(\d+(?:\.\d+)?)[\s]*KG\b/`, `parseFloat` of the first capture. -/

/-- Comma replacement `.replace(/,/g, ".")`. -/
def commaToDot (l : List Char) : List Char :=
  l.map (fun c => if c = ',' then '.' else c)

/-- The regex class `\d`. -/
def isDigit (c : Char) : Bool := 48 ≤ c.toNat && c.toNat ≤ 57

/-- The regex word class `\w` (`\b` holds where a word char does not follow). -/
def isWordChar (c : Char) : Bool :=
  (65 ≤ c.toNat && c.toNat ≤ 90) || (97 ≤ c.toNat && c.toNat ≤ 122) ||
  isDigit c || c.toNat = 95

/-- Greedy `\d+` (splitting off the longest digit run). -/
def takeDigits (l : List Char) : List Char × List Char :=
  (l.takeWhile isDigit, l.dropWhile isDigit)

/-- Attempt the pattern `(\d+(?:\.\d+)?)[\s]*KG\b` at the start of `l`,
returning the first capture group.  Greedy maximal munch is complete here:
no character that can follow a digit run inside the pattern (`.`,
whitespace, `K`) is itself a digit, so the regex never needs to backtrack
into `\d+`, and whitespace characters are not `K`, so it never backtracks
into `[\s]*` either. -/
def tryKgAt (l : List Char) : Option (List Char) :=
  let p := takeDigits l
  if p.1.isEmpty then Option.none
  else
    let q :=
      match p.2 with
      | '.' :: r =>
        let f := takeDigits r
        if f.1.isEmpty then (p.1, p.2) else (p.1 ++ '.' :: f.1, f.2)
      | _ => (p.1, p.2)
    match q.2.dropWhile isWs with
    | 'K' :: 'G' :: r4 =>
      match r4 with
      | [] => some q.1
      | d :: _ => if isWordChar d then Option.none else some q.1
    | _ => Option.none

/-- JS `String.prototype.match` with a non-global regex: scan start positions
left to right and keep the first successful attempt. -/
def findKgMatch : List Char → Option (List Char)
  | [] => Option.none
  | c :: t =>
    match tryKgAt (c :: t) with
    | some cap => some cap
    | Option.none => findKgMatch t

/-- Numeric value of a digit run. -/
def digitsToNat (l : List Char) : Nat :=
  l.foldl (fun n c => 10 * n + (c.toNat - 48)) 0

/-- JS `parseFloat` on a `\d+(\.\d+)?` capture (always finite in the exact
rational model, so the `Number.isFinite` guard in the source is always
satisfied here). -/
def decToRat (cap : List Char) : ℚ :=
  let p := takeDigits cap
  match p.2 with
  | '.' :: fs =>
    (digitsToNat p.1 : ℚ) + (digitsToNat (fs.takeWhile isDigit) : ℚ) / (10 ^ (fs.takeWhile isDigit).length : ℚ)
  | _ => (digitsToNat p.1 : ℚ)

/-- Function `parseKg` from `src/components/ScanModal.tsx`. -/
def parseKg (text : String) : Option ℚ :=
  let normalized := commaToDot (normalizeTextL text.data)
  match findKgMatch normalized with
  | some cap => some (decToRat cap)
  | Option.none => Option.none

/-! ## Scan modal confirm/rescan state (src/components/ScanModal.tsx) -/

/-- Type `Mode` from `ScanModal.tsx`. -/
inductive SessionMode
  | camera
  | confirm
deriving DecidableEq, Repr

/-- The pending-record slice of the modal's state: mode plus the fields
`clearConfirmState` clears, plus the error banner. -/
structure ScanState where
  mode : SessionMode
  ocrText : String
  selectedProductId : String
  kgInput : String
  showText : Bool
  error : Option String
deriving DecidableEq, Repr

/-- The record handed to `onConfirmRecord`. -/
structure ConfirmedRecord where
  productId : String
  productName : String
  kg : ℚ
  source : String
  rawText : String
deriving DecidableEq, Repr

/-- Scale factor of an exponent part after its `e`/`E`: an optional sign
and a digit run.  When no digit follows (as in `"1e"` or `"1e+"`) the
exponent is not part of the number and the scale is 1, matching
`parseFloat`'s longest-valid-prefix rule. -/
def expScaleBody (r : List Char) : ℚ :=
  match r with
  | '+' :: r2 =>
    if (takeDigits r2).1.isEmpty then 1 else (10 : ℚ) ^ digitsToNat (takeDigits r2).1
  | '-' :: r2 =>
    if (takeDigits r2).1.isEmpty then 1 else 1 / (10 : ℚ) ^ digitsToNat (takeDigits r2).1
  | r2 =>
    if (takeDigits r2).1.isEmpty then 1 else (10 : ℚ) ^ digitsToNat (takeDigits r2).1

/-- Scale factor of the optional `ExponentPart` of a decimal literal:
`e` or `E`, an optional sign, then digits; 1 when absent. -/
def expScale (l : List Char) : ℚ :=
  match l with
  | 'e' :: r => expScaleBody r
  | 'E' :: r => expScaleBody r
  | _ => 1

/-- JS `parseFloat` on a weight-input string: optional whitespace and
sign, then a decimal literal — digits with an optional fractional part
(or a bare fractional part) and an optional `e`/`E` exponent; trailing
junk is ignored.  `Option.none` models every non-finite outcome: `NaN`
on inputs with no parsable number, and the `Infinity` literal (the
source rejects all of these through the same `Number.isFinite` guard
and error branch that handles out-of-range weights, so the model's
rejection behaviour coincides with the source's). -/
def parseFloatQ (s : String) : Option ℚ :=
  let body : List Char → Option ℚ := fun l =>
    let d := takeDigits l
    match d.2 with
    | '.' :: r =>
      let f := takeDigits r
      if d.1.isEmpty && f.1.isEmpty then Option.none
      else
        some (((digitsToNat d.1 : ℚ) + (digitsToNat f.1 : ℚ) / (10 ^ f.1.length : ℚ)) *
          expScale f.2)
    | _ =>
      if d.1.isEmpty then Option.none
      else some ((digitsToNat d.1 : ℚ) * expScale d.2)
  match s.data.dropWhile isWs with
  | '-' :: rest => (body rest).map (fun q => -q)
  | '+' :: rest => body rest
  | l => body l

/-- Handler `handleConfirm`: validate, and either set an error (leaving the pending
fields untouched) or emit the record, clear the confirm state, and return
to camera mode. -/
def handleConfirm (products : List Product) (s : ScanState) :
    ScanState × Option ConfirmedRecord :=
  if s.selectedProductId = "" then
    ({ s with error := some "Please select a product." }, Option.none)
  else
    match parseFloatQ s.kgInput with
    | Option.none =>
      ({ s with error := some "Weight is invalid (0.05 - 50 kg)." }, Option.none)
    | some kg =>
      if kg ≤ 0 ∨ kg < 1/20 ∨ 50 < kg then
        ({ s with error := some "Weight is invalid (0.05 - 50 kg)." }, Option.none)
      else
        match products.find? (fun p => p.id == s.selectedProductId) with
        | Option.none => ({ s with error := some "Invalid product." }, Option.none)
        | some product =>
          (⟨SessionMode.camera, "", "", "", false, Option.none⟩,
           some ⟨product.id, product.name, kg, "ocr", s.ocrText⟩)

/-- The rescan handlers that call `clearConfirmState(); setError(null);
setMode("camera")` (both buttons of the tesseract variants, and the header
button of the API variant). -/
def rescanWithClear (_s : ScanState) : ScanState :=
  ⟨SessionMode.camera, "", "", "", false, Option.none⟩

/-- The bottom rescan button of the API variant of `ScanModal.tsx`
(second document, around line 876): `onClick={() => setMode("camera")}` —
only the mode changes. -/
def rescanBottomApi (s : ScanState) : ScanState :=
  { s with mode := SessionMode.camera }

/-- The `camera`-mode invariant of the spec data model: an empty pending
record. -/
def pendingEmpty (s : ScanState) : Prop :=
  s.ocrText = "" ∧ s.selectedProductId = "" ∧ s.kgInput = ""

/-! ## OCR worker manager (src/lib/tesseractWorker.ts)

The module state (`workerPromise`, `workerInstance`) together with the
callers awaiting the promise, driven by an event trace: the synchronous
prefix of a `getWorker()` call, the settling of the in-flight
initialization, and `terminateWorker()`.  Initializations are numbered so
that distinct initialization sequences produce distinct handles. -/

/-- Module-level state of `tesseractWorker.ts`. -/
structure MgrState where
  workerPromise : Option Nat
  workerInstance : Option Nat
  inflight : Option Nat
  nextId : Nat
  initsStarted : Nat
deriving DecidableEq, Repr

/-- Fresh module state. -/
def MgrState.start : MgrState := ⟨Option.none, Option.none, Option.none, 0, 0⟩

/-- Events of the manager model. -/
inductive MgrEv
  | call (cid : Nat)
  | settle (ok : Bool)
  | release
deriving DecidableEq, Repr

/-- Manager state plus awaiting callers and delivered results
(`Option.none` as a result models a rejected promise). -/
structure MgrSys where
  mgr : MgrState
  waiting : List (Nat × Nat)
  results : List (Nat × Option Nat)
deriving DecidableEq, Repr

/-- One event of the manager model.
`call`: `getWorker()` returns the cached instance, or awaits the cached
promise, or creates and caches a fresh initialization promise.
`settle true`: the initialization body finishes — it caches the instance
and resolves every awaiting caller with it (the promise stays cached).
`settle false`: the catch branch — it clears `workerPromise` (failures are
not cached) and rejects the awaiting callers.
`release`: `terminateWorker()` — only when an instance is cached does it
terminate it and clear both fields. -/
def sysStep (s : MgrSys) : MgrEv → MgrSys
  | MgrEv.call cid =>
    match s.mgr.workerInstance with
    | some w => { s with results := s.results ++ [(cid, some w)] }
    | Option.none =>
      match s.mgr.workerPromise with
      | some p => { s with waiting := s.waiting ++ [(cid, p)] }
      | Option.none =>
        let p := s.mgr.nextId
        { s with
          mgr := { s.mgr with workerPromise := some p, inflight := some p,
                              nextId := p + 1, initsStarted := s.mgr.initsStarted + 1 },
          waiting := s.waiting ++ [(cid, p)] }
  | MgrEv.settle ok =>
    match s.mgr.inflight with
    | Option.none => s
    | some p =>
      if ok then
        { mgr := { s.mgr with workerInstance := some p, inflight := Option.none },
          waiting := s.waiting.filter (fun w => w.2 ≠ p),
          results := s.results ++ (s.waiting.filter (fun w => w.2 = p)).map (fun w => (w.1, some p)) }
      else
        { mgr := { s.mgr with workerPromise := Option.none, inflight := Option.none },
          waiting := s.waiting.filter (fun w => w.2 ≠ p),
          results := s.results ++ (s.waiting.filter (fun w => w.2 = p)).map (fun w => (w.1, Option.none)) }
  | MgrEv.release =>
    match s.mgr.workerInstance with
    | some _ =>
      { s with mgr := { s.mgr with workerInstance := Option.none,
                                   workerPromise := Option.none } }
    | Option.none => s

/-- Run an event trace from the fresh module state. -/
def sysRun (evs : List MgrEv) : MgrSys :=
  evs.foldl sysStep ⟨MgrState.start, [], []⟩

/-! ## Stability detector -/

/-- A transient low-resolution RGB sample of the region of interest. -/
def SmallSample : Type := List (Nat × Nat × Nat)

/-- Modelled from the spec: `frameDiff(prev, cur)` — the repository sources
contain no stability-detector implementation, so §4.5 of the specification
is the authority.  Mean per-pixel absolute difference, the R+G+B deltas
summed per pixel and averaged over the pixel count. -/
def frameDiff (a b : SmallSample) : ℚ :=
  match a, b with
  | [], _ => 0
  | _, _ =>
    ((a.zip b).map (fun pq =>
      ((((pq.1.1 : ℤ) - pq.2.1).natAbs + ((pq.1.2.1 : ℤ) - pq.2.2.1).natAbs +
        ((pq.1.2.2 : ℤ) - pq.2.2.2).natAbs : ℕ) : ℚ))).sum / (a.length : ℚ)

/-- Stability threshold of §4.5: 12 mean-diff units. -/
def DIFF_THRESHOLD : ℚ := 12

/-- Stability dwell of §4.5: 500 ms. -/
def STABLE_MS : Nat := 500

/-- Cooldown of §4.5: 800 ms. -/
def COOLDOWN_MS : Nat := 800

/-- Modelled from the spec: the detector state of §4.5 — the stored
sample, the stability-timer start, the trigger lock, the cooldown
deadline, and a count of capture invocations. -/
structure DetState where
  prev : Option SmallSample
  stableSince : Option Nat
  locked : Bool
  cooldownUntil : Nat
  captures : Nat

/-- Fresh detector state. -/
def DetState.start : DetState := ⟨Option.none, Option.none, false, 0, 0⟩

/-- Modelled from the spec: one sampling tick of §4.5.  Skip while locked
or cooling down; store the first sample; diff against the stored sample;
below the threshold start/keep the stability timer and trigger a capture
once the engine is ready and the timer exceeds 500 ms; at or above the
threshold reset the timer. -/
def detTick (engineReady : Bool) (now : Nat) (sample : SmallSample)
    (st : DetState) : DetState :=
  if st.locked || now < st.cooldownUntil then st
  else
    match st.prev with
    | Option.none => { st with prev := some sample }
    | some prevSample =>
      if frameDiff prevSample sample < DIFF_THRESHOLD then
        let start := st.stableSince.getD now
        if engineReady && decide (STABLE_MS < now - start) then
          { st with prev := some sample, stableSince := some start,
                    locked := true, captures := st.captures + 1 }
        else
          { st with prev := some sample, stableSince := some start }
      else
        { st with prev := some sample, stableSince := Option.none }

/-- Modelled from the spec: completion of a triggered capture — release
the lock, reset the stability timer, and enter the 800 ms cooldown. -/
def detComplete (now : Nat) (st : DetState) : DetState :=
  { st with locked := false, stableSince := Option.none,
            cooldownUntil := now + COOLDOWN_MS }

/-- Run a list of timed samples through the detector. -/
def detRun (engineReady : Bool) (ticks : List (Nat × SmallSample))
    (st : DetState) : DetState :=
  ticks.foldl (fun s t => detTick engineReady t.1 t.2 s) st

/-! ## Auxiliary definitions used by the theorems -/

/-- Two-product test catalog of §8 of the specification. -/
def catalogAB : List Product := [⟨"A", "A", ["FOO"]⟩, ⟨"B", "B", ["BAR"]⟩]

/-- A confirm-mode state with a pending record and a given weight input. -/
def confState (kg : String) : ScanState :=
  ⟨SessionMode.confirm, "ETUPOTKA 2 KG", "10574", kg, false, Option.none⟩

/-- A confirm-mode state with a non-empty pending record, used to exercise
the rescan handlers. -/
def rescanBugState : ScanState :=
  ⟨SessionMode.confirm, "ETUPOTKA 2,1 KG", "10574", "2.1", false, Option.none⟩

/-- Maximum of a list of scores, starting from the `bestScore = 0` seed of
Step B. -/
def listMax (l : List ℚ) : ℚ := l.foldl max 0

/-- All Step-B pair scores, in iteration order (product-major,
keyword-minor). -/
def pairScores (normalized : List Char) (tokens : List (List Char))
    (products : List Product) : List ℚ :=
  products.flatMap (fun p =>
    p.keywords.map (fun k => keywordScore normalized tokens (normalizeTextL k.data)))

/-- Head character is not whitespace (vacuously true for the empty list). -/
def leadOk : List Char → Bool
  | [] => true
  | c :: _ => !isWs c

/-- Last character is not whitespace (vacuously true for the empty list). -/
def lastOk (l : List Char) : Bool :=
  match l.getLast? with
  | Option.none => true
  | some d => !isWs d

/-- Whitespace-normal form: every whitespace character is a space and no
two whitespace characters are adjacent. -/
def wsOk : List Char → Bool
  | [] => true
  | [c] => !isWs c || (c == ' ')
  | c :: d :: t => (!isWs c || (c == ' ')) && !(isWs c && isWs d) && wsOk (d :: t)

/-- Combined per-character action of uppercasing, NFD decomposition and
mark stripping. -/
def charNorm (c : Char) : List Char := stripMarks (nfdChar (jsToUpper c))

/-- The single character `charNorm` leaves for a non-mark input. -/
def baseChar (c : Char) : Char := (charNorm c).headD c

/-- No combining diacritical marks anywhere in the list. -/
def noMarks (l : List Char) : Bool := l.all (fun c => !isMark c)

/-- A character that every stage of `normalizeText` leaves unchanged. -/
def inertChar (c : Char) : Bool :=
  (jsToUpper c == c) && (nfdChar c == [c]) && !isMark c

/-- Graph of `jsToUpper` on the letters it changes. -/
def upperPairs : List (Char × Char) :=
  [('a','A'), ('b','B'), ('c','C'), ('d','D'), ('e','E'), ('f','F'),
   ('g','G'), ('h','H'), ('i','I'), ('j','J'), ('k','K'), ('l','L'),
   ('m','M'), ('n','N'), ('o','O'), ('p','P'), ('q','Q'), ('r','R'),
   ('s','S'), ('t','T'), ('u','U'), ('v','V'), ('w','W'), ('x','X'),
   ('y','Y'), ('z','Z'), ('ä','Ä'), ('ö','Ö'), ('å','Å')]

/-- Graph of `nfdChar` on the characters it decomposes. -/
def nfdPairs : List (Char × List Char) :=
  [('Ä', ['A', '̈']), ('ä', ['a', '̈']), ('Ö', ['O', '̈']), ('ö', ['o', '̈']),
   ('Å', ['A', '̊']), ('å', ['a', '̊'])]

/-- A constant two-pixel sample for synthetic detector runs. -/
def stillSample : SmallSample := [(10, 10, 10), (20, 20, 20)]

/-! ## Shared lemmas: the exact keyword pass -/

theorem exactPass_eq_find (n : List Char) :
    ∀ ps : List Product, exactPass n ps = ps.find? (keywordHit n) := by
  intro ps
  induction ps with
  | nil => rfl
  | cons p ps ih =>
    by_cases h : keywordHit n p
    · simp [exactPass, List.find?, h]
    · simp only [Bool.not_eq_true] at h
      simp [exactPass, List.find?, h, ih]

theorem matchProduct_of_find (text : String) (products : List Product) (p : Product)
    (h : products.find? (keywordHit (normalizeTextL text.data)) = some p) :
    matchProduct text products = ⟨some p, MatchMethod.keyword⟩ := by
  unfold matchProduct
  rw [exactPass_eq_find, h]

theorem matchProduct_of_find_none (text : String) (products : List Product)
    (h : products.find? (keywordHit (normalizeTextL text.data)) = Option.none) :
    matchProduct text products = fuzzyResult text products := by
  unfold matchProduct
  rw [exactPass_eq_find, h]

theorem fuzzyResult_method_ne_keyword (text : String) (products : List Product) :
    (fuzzyResult text products).method ≠ MatchMethod.keyword := by
  unfold fuzzyResult
  split
  · split <;> simp
  · simp

/-- C1: the exact pass iterates the catalog in order and returns the first
product one of whose normalized keywords is a substring of the normalized
text, with method `keyword`; the fuzzy pass is reached only when no
product has such a keyword, so an exact keyword match always takes
priority over a fuzzy match. -/
theorem claim_C1 (text : String) (products : List Product) :
    ((∃ p ∈ products, keywordHit (normalizeTextL text.data) p = true) →
      ∃ p, products.find? (keywordHit (normalizeTextL text.data)) = some p ∧
        matchProduct text products = ⟨some p, MatchMethod.keyword⟩) ∧
    ((∀ p ∈ products, keywordHit (normalizeTextL text.data) p = false) →
      matchProduct text products = fuzzyResult text products ∧
      (matchProduct text products).method ≠ MatchMethod.keyword) := by
  constructor
  · rintro ⟨p, hp, hhit⟩
    have hs : (products.find? (keywordHit (normalizeTextL text.data))).isSome := by
      rw [List.find?_isSome]
      exact ⟨p, hp, hhit⟩
    obtain ⟨q, hq⟩ := Option.isSome_iff_exists.mp hs
    exact ⟨q, hq, matchProduct_of_find text products q hq⟩
  · intro hall
    have hn : products.find? (keywordHit (normalizeTextL text.data)) = Option.none := by
      rw [List.find?_eq_none]
      intro p hp
      simp [hall p hp]
    have he := matchProduct_of_find_none text products hn
    exact ⟨he, by rw [he]; exact fuzzyResult_method_ne_keyword text products⟩

/-- Witness for C1 at the §8 example: catalog `[A(FOO), B(BAR)]` and text
`"some FOO label"` give product A with method `keyword`. -/
theorem claim_C1_witness :
    matchProduct "some FOO label" catalogAB =
      ⟨some ⟨"A", "A", ["FOO"]⟩, MatchMethod.keyword⟩ := by
  obtain ⟨p, hfind, heq⟩ := (claim_C1 "some FOO label" catalogAB).1
    ⟨⟨"A", "A", ["FOO"]⟩, by decide, by decide⟩
  have h2 : catalogAB.find? (keywordHit (normalizeTextL "some FOO label".data)) =
      some ⟨"A", "A", ["FOO"]⟩ := by decide
  rw [hfind] at h2
  rw [Option.some.injEq] at h2
  rw [h2] at heq
  exact heq

/-- C10: a keyword that normalizes to the empty string matches every text
(the empty string is a substring of everything), so a product carrying one
always matches with method `keyword`, and at the head of the catalog it
shadows every later product in the exact pass. -/
theorem claim_C10 (text : String) (p : Product)
    (hkw : ∃ k ∈ p.keywords, normalizeTextL k.data = []) :
    (∀ products, p ∈ products →
      (matchProduct text products).method = MatchMethod.keyword ∧
      ((matchProduct text products).product).isSome = true) ∧
    (∀ rest, matchProduct text (p :: rest) = ⟨some p, MatchMethod.keyword⟩) := by
  have hsub : ∀ n : List Char, containsSub n [] = true := by
    intro n
    cases n <;> simp [containsSub, List.isPrefixOf]
  have hhit : ∀ n : List Char, keywordHit n p = true := by
    intro n
    obtain ⟨k, hk, hnorm⟩ := hkw
    unfold keywordHit
    rw [List.any_eq_true]
    exact ⟨k, hk, by rw [hnorm]; exact hsub n⟩
  constructor
  · intro products hp
    have hs : (products.find? (keywordHit (normalizeTextL text.data))).isSome := by
      rw [List.find?_isSome]
      exact ⟨p, hp, hhit _⟩
    obtain ⟨q, hq⟩ := Option.isSome_iff_exists.mp hs
    rw [matchProduct_of_find text products q hq]
    exact ⟨rfl, rfl⟩
  · intro rest
    unfold matchProduct
    have : exactPass (normalizeTextL text.data) (p :: rest) = some p := by
      unfold exactPass
      rw [hhit]
      simp
    rw [this]

/-- Witness for C10: a whitespace-only keyword at the head of the catalog
matches even the empty text with method `keyword`. -/
theorem claim_C10_witness :
    matchProduct "" [⟨"W", "W", [" "]⟩, ⟨"A", "A", ["FOO"]⟩] =
      ⟨some ⟨"W", "W", [" "]⟩, MatchMethod.keyword⟩ :=
  (claim_C10 "" ⟨"W", "W", [" "]⟩ ⟨" ", by decide, by decide⟩).2 [⟨"A", "A", ["FOO"]⟩]

/-! ## C4: confirm-time validation -/

/-- C4: `handleConfirm` emits a record exactly when a product is selected,
the weight parses and lies in [0.05, 50] kilograms, and the selected id is
in the catalog (the `kg ≤ 0` test in the source is subsumed by
`kg < 0.05`); every rejection reports an error and leaves the pending
record — raw text, selection, weight input — and the mode unchanged; on
success the record carries the pending raw text, the state returns to
camera mode with an empty pending record, and the boundary weights behave
as specified: 0.04 and 50.01 are rejected, 0.05 and 50 are accepted
(and the exponent-notation input "1e3" parses to 1000 and is rejected as
over 50 kilograms). -/
theorem claim_C4 (products : List Product) (s : ScanState) :
    (((handleConfirm products s).2).isSome ↔
      s.selectedProductId ≠ "" ∧
      ∃ kg, parseFloatQ s.kgInput = some kg ∧ 1/20 ≤ kg ∧ kg ≤ 50 ∧
        ((products.find? (fun p => p.id == s.selectedProductId)).isSome = true)) ∧
    ((handleConfirm products s).2 = Option.none →
      (handleConfirm products s).1.ocrText = s.ocrText ∧
      (handleConfirm products s).1.selectedProductId = s.selectedProductId ∧
      (handleConfirm products s).1.kgInput = s.kgInput ∧
      (handleConfirm products s).1.mode = s.mode ∧
      (((handleConfirm products s).1.error).isSome = true)) ∧
    (∀ r, (handleConfirm products s).2 = some r →
      (handleConfirm products s).1.mode = SessionMode.camera ∧
      pendingEmpty (handleConfirm products s).1 ∧
      r.rawText = s.ocrText ∧ r.source = "ocr") ∧
    ((handleConfirm PRODUCTS (confState "0.04")).2 = Option.none ∧
     ((handleConfirm PRODUCTS (confState "0.05")).2).isSome = true ∧
     ((handleConfirm PRODUCTS (confState "50")).2).isSome = true ∧
     (handleConfirm PRODUCTS (confState "50.01")).2 = Option.none ∧
     parseFloatQ "1e3" = some 1000 ∧
     (handleConfirm PRODUCTS (confState "1e3")).2 = Option.none) := by
  refine ⟨?_, ?_, ?_, by decide, by decide, by decide, by decide, by decide, by decide⟩
  · constructor
    · intro h
      unfold handleConfirm at h
      split at h
      · simp at h
      · split at h
        · simp at h
        · rename_i kg hkg
          split at h
          · simp at h
          · rename_i hrange
            split at h
            · simp at h
            · rename_i q hfind
              push_neg at hrange
              refine ⟨by assumption, kg, hkg, hrange.2.1, hrange.2.2, by rw [hfind]; rfl⟩
    · rintro ⟨hsel, kg, hkg, hlo, hhi, hfindsome⟩
      obtain ⟨q, hfind⟩ := Option.isSome_iff_exists.mp hfindsome
      have hpos : ¬(kg ≤ 0 ∨ kg < 1/20 ∨ 50 < kg) := by
        push_neg
        exact ⟨lt_of_lt_of_le (by norm_num) hlo, hlo, hhi⟩
      simp only [handleConfirm, if_neg hsel, hkg, if_neg hpos, hfind]
      rfl
  · unfold handleConfirm
    split
    · exact fun _ => ⟨rfl, rfl, rfl, rfl, rfl⟩
    · split
      · exact fun _ => ⟨rfl, rfl, rfl, rfl, rfl⟩
      · split
        · exact fun _ => ⟨rfl, rfl, rfl, rfl, rfl⟩
        · split
          · exact fun _ => ⟨rfl, rfl, rfl, rfl, rfl⟩
          · intro h
            simp at h
  · unfold handleConfirm
    split
    · intro r hr
      simp at hr
    · split
      · intro r hr
        simp at hr
      · split
        · intro r hr
          simp at hr
        · split
          · intro r hr
            simp at hr
          · intro r hr
            rw [Option.some.injEq] at hr
            subst hr
            exact ⟨rfl, ⟨rfl, rfl, rfl⟩, rfl, rfl⟩

/-- Witness for C4: the boundary weight 0.05 with a valid catalog product
selected is accepted. -/
theorem claim_C4_witness :
    ((handleConfirm PRODUCTS (confState "0.05")).2).isSome = true :=
  ((claim_C4 PRODUCTS (confState "0.05")).1).mpr
    ⟨by decide, 1/20, by decide, by decide, by decide, by decide⟩

/-! ## C7: the rescan transition -/

/-- C7: the rescan handlers that call `clearConfirmState` do discard the
pending record unconditionally and restore the empty-pending camera
invariant — but the bottom rescan button of the API variant of
`ScanModal.tsx` (around line 876) only switches the mode, carrying a
non-empty pending record into camera mode, against the stated invariant. -/
theorem claim_C7 :
    (∀ s : ScanState, (rescanWithClear s).mode = SessionMode.camera ∧
      pendingEmpty (rescanWithClear s) ∧ (rescanWithClear s).error = Option.none) ∧
    ((rescanBottomApi rescanBugState).mode = SessionMode.camera ∧
     (rescanBottomApi rescanBugState).ocrText = "ETUPOTKA 2,1 KG" ∧
     (rescanBottomApi rescanBugState).selectedProductId = "10574" ∧
     (rescanBottomApi rescanBugState).kgInput = "2.1" ∧
     ¬ pendingEmpty (rescanBottomApi rescanBugState)) := by
  refine ⟨fun s => ⟨rfl, ⟨rfl, rfl, rfl⟩, rfl⟩, rfl, rfl, rfl, rfl, ?_⟩
  rintro ⟨h, -, -⟩
  simp [rescanBottomApi, rescanBugState] at h

/-! ## C5 and C6: the single-flight worker manager -/

theorem sysRun_calls (cids : List Nat) (p : Nat) :
    ∀ (m : MgrState) (ws : List (Nat × Nat)) (rs : List (Nat × Option Nat)),
      m.workerInstance = Option.none → m.workerPromise = some p →
      List.foldl sysStep ⟨m, ws, rs⟩ (cids.map MgrEv.call) =
        ⟨m, ws ++ cids.map (fun c => (c, p)), rs⟩ := by
  induction cids with
  | nil => intro m ws rs _ _; simp
  | cons c cs ih =>
    intro m ws rs h1 h2
    have hstep : sysStep ⟨m, ws, rs⟩ (MgrEv.call c) = ⟨m, ws ++ [(c, p)], rs⟩ := by
      unfold sysStep
      rw [h1, h2]
    simp only [List.map_cons, List.foldl_cons, hstep, ih _ _ _ h1 h2, List.append_assoc,
      List.singleton_append, List.map_cons]

/-- C5: the manager is single-flight — any number of `getWorker()` calls
issued before the initialization settles start exactly one initialization
and, on success, all resolve to the identical handle; on failure the
in-flight promise is cleared (failures are not cached) and the next call
starts a fresh initialization. -/
theorem claim_C5 (c0 c1 : Nat) (cids : List Nat) :
    ((sysRun ((c0 :: cids).map MgrEv.call ++ [MgrEv.settle true])).mgr.initsStarted = 1 ∧
     (sysRun ((c0 :: cids).map MgrEv.call ++ [MgrEv.settle true])).mgr.workerInstance = some 0 ∧
     (sysRun ((c0 :: cids).map MgrEv.call ++ [MgrEv.settle true])).results =
       (c0 :: cids).map (fun c => (c, some 0))) ∧
    ((sysRun ((c0 :: cids).map MgrEv.call ++ [MgrEv.settle false])).mgr.workerPromise =
       Option.none ∧
     (sysRun ((c0 :: cids).map MgrEv.call ++ [MgrEv.settle false])).mgr.initsStarted = 1 ∧
     (sysStep (sysRun ((c0 :: cids).map MgrEv.call ++ [MgrEv.settle false]))
       (MgrEv.call c1)).mgr.initsStarted = 2) := by
  have hfirst : sysStep ⟨MgrState.start, [], []⟩ (MgrEv.call c0) =
      ⟨⟨some 0, Option.none, some 0, 1, 1⟩, [(c0, 0)], []⟩ := by
    unfold sysStep MgrState.start
    rfl
  have hcalls : sysRun ((c0 :: cids).map MgrEv.call) =
      ⟨⟨some 0, Option.none, some 0, 1, 1⟩, (c0 :: cids).map (fun c => (c, 0)), []⟩ := by
    unfold sysRun
    rw [List.map_cons, List.foldl_cons, hfirst, sysRun_calls cids 0 _ _ _ rfl rfl]
    simp
  have hfilter1 : ((c0 :: cids).map (fun c => (c, 0))).filter
      (fun w : Nat × Nat => decide ¬(w.2 = 0)) = [] := by
    rw [List.filter_map]
    simp [Function.comp_def]
  have hfilter2 : ((c0 :: cids).map (fun c => (c, 0))).filter
      (fun w : Nat × Nat => decide (w.2 = 0)) = (c0 :: cids).map (fun c => (c, 0)) := by
    rw [List.filter_map]
    simp [Function.comp_def]
  constructor
  · have : sysRun ((c0 :: cids).map MgrEv.call ++ [MgrEv.settle true]) =
        sysStep (sysRun ((c0 :: cids).map MgrEv.call)) (MgrEv.settle true) := by
      unfold sysRun
      rw [List.foldl_append]
      rfl
    rw [this, hcalls]
    unfold sysStep
    simp only [hfilter1, hfilter2, List.map_map]
    exact ⟨rfl, rfl, by simp [Function.comp_def]⟩
  · have hrw : sysRun ((c0 :: cids).map MgrEv.call ++ [MgrEv.settle false]) =
        sysStep (sysRun ((c0 :: cids).map MgrEv.call)) (MgrEv.settle false) := by
      unfold sysRun
      rw [List.foldl_append]
      rfl
    rw [hrw, hcalls]
    unfold sysStep
    simp only [hfilter1, hfilter2, List.map_map]
    exact ⟨rfl, rfl, rfl⟩

/-- Witness for C5 at a concrete trace: two callers, one initialization,
identical handles; and a clean retry after a failure. -/
theorem claim_C5_witness :
    (sysRun [MgrEv.call 0, MgrEv.call 1, MgrEv.settle true]).mgr.initsStarted = 1 ∧
    (sysRun [MgrEv.call 0, MgrEv.call 1, MgrEv.settle true]).results =
      [(0, some 0), (1, some 0)] ∧
    (sysStep (sysRun [MgrEv.call 2, MgrEv.settle false]) (MgrEv.call 3)).mgr.initsStarted = 2 := by
  have h1 := claim_C5 0 1 [1]
  have h2 := claim_C5 2 3 []
  exact ⟨h1.1.1, h1.1.2.2, h2.2.2.2⟩

/-- C6 counterexample: in the state reached by a single `getWorker()` call
(initialization in flight, no cached instance), `terminateWorker()` is a
no-op: the in-flight promise is not cleared, and the next call joins it
instead of performing a full re-initialization. -/
theorem claim_C6_cex :
    (sysStep (sysRun [MgrEv.call 0]) MgrEv.release = sysRun [MgrEv.call 0]) ∧
    (sysRun [MgrEv.call 0]).mgr.workerPromise = some 0 ∧
    (sysStep (sysStep (sysRun [MgrEv.call 0]) MgrEv.release) (MgrEv.call 1)).mgr.initsStarted
      = 1 := by
  exact ⟨rfl, rfl, rfl⟩

/-- C6 (amended): when a cached engine instance exists, `release()` clears
both the cached handle and the cached initialization promise, and the next
`getWorker()` call performs a full re-initialization; while an
initialization is merely in flight (no cached instance), `release()` is a
no-op and the next call reuses the in-flight initialization. -/
theorem claim_C6 (s : MgrSys) (w c : Nat) (h : s.mgr.workerInstance = some w) :
    (sysStep s MgrEv.release).mgr.workerInstance = Option.none ∧
    (sysStep s MgrEv.release).mgr.workerPromise = Option.none ∧
    (sysStep (sysStep s MgrEv.release) (MgrEv.call c)).mgr.initsStarted =
      s.mgr.initsStarted + 1 := by
  have hrel : sysStep s MgrEv.release =
      { s with mgr := { s.mgr with workerInstance := Option.none,
                                   workerPromise := Option.none } } := by
    unfold sysStep
    rw [h]
  rw [hrel]
  refine ⟨rfl, rfl, ?_⟩
  unfold sysStep
  rfl

/-- Witness for C6 (amended): after a completed initialization, release
forces the next call to start initialization number two. -/
theorem claim_C6_witness :
    (sysStep (sysRun [MgrEv.call 0, MgrEv.settle true]) MgrEv.release).mgr.workerPromise =
      Option.none ∧
    (sysStep (sysStep (sysRun [MgrEv.call 0, MgrEv.settle true]) MgrEv.release)
      (MgrEv.call 1)).mgr.initsStarted = 2 := by
  have h := claim_C6 (sysRun [MgrEv.call 0, MgrEv.settle true]) 0 1 (by rfl)
  exact ⟨h.2.1, h.2.2⟩

/-! ## C3: the weight extractor -/

theorem findKgMatch_some_iff (l : List Char) (cap : List Char) :
    findKgMatch l = some cap ↔
      ∃ i, tryKgAt (l.drop i) = some cap ∧
        ∀ j < i, tryKgAt (l.drop j) = Option.none := by
  induction l with
  | nil =>
    simp only [findKgMatch, List.drop_nil]
    constructor
    · intro h; cases h
    · rintro ⟨i, hi, -⟩
      cases hi
  | cons c t ih =>
    rcases h : tryKgAt (c :: t) with _ | cap0
    · simp only [findKgMatch, h, ih]
      constructor
      · rintro ⟨i, hi, hb⟩
        refine ⟨i + 1, by simpa using hi, ?_⟩
        intro j hj
        cases j with
        | zero => simpa using h
        | succ j' => simpa using hb j' (by omega)
      · rintro ⟨i, hi, hb⟩
        cases i with
        | zero =>
          rw [List.drop_zero] at hi
          rw [h] at hi
          cases hi
        | succ i' =>
          refine ⟨i', by simpa using hi, ?_⟩
          intro j hj
          have := hb (j + 1) (by omega)
          simpa using this
    · simp only [findKgMatch, h]
      constructor
      · intro heq
        refine ⟨0, ?_, ?_⟩
        · rw [List.drop_zero, h]
          exact heq
        · intro j hj
          exact absurd hj (Nat.not_lt_zero j)
      · rintro ⟨i, hi, hb⟩
        cases i with
        | zero =>
          rw [List.drop_zero, h] at hi
          exact hi
        | succ i' =>
          have := hb 0 (by omega)
          rw [List.drop_zero, h] at this
          cases this

theorem findKgMatch_none_iff (l : List Char) :
    findKgMatch l = Option.none ↔ ∀ i, tryKgAt (l.drop i) = Option.none := by
  induction l with
  | nil =>
    simp only [findKgMatch, List.drop_nil]
    exact ⟨fun _ _ => rfl, fun _ => trivial⟩
  | cons c t ih =>
    rcases h : tryKgAt (c :: t) with _ | cap0
    · simp only [findKgMatch, h, ih]
      constructor
      · intro hall i
        cases i with
        | zero => simpa using h
        | succ i' => simpa using hall i'
      · intro hall i
        have := hall (i + 1)
        simpa using this
    · simp only [findKgMatch, h]
      constructor
      · intro heq; cases heq
      · intro hall
        have := hall 0
        rw [List.drop_zero, h] at this
        cases this

/-- C3: `parseKg` scans the normalized, comma-to-dot text for the leftmost
occurrence of the pattern "digits, optional decimal part, optional
whitespace, the token KG at a word boundary", uses only that first match,
and returns its parsed decimal value (always finite in the exact model);
in particular the weight on "Weight: 2,350 KG" parses to 2.35 and a text
with no unit yields none. -/
theorem claim_C3 (text : String) :
    (∀ v, parseKg text = some v ↔
      ∃ i cap, tryKgAt ((commaToDot (normalizeTextL text.data)).drop i) = some cap ∧
        decToRat cap = v ∧
        ∀ j < i, tryKgAt ((commaToDot (normalizeTextL text.data)).drop j) = Option.none) ∧
    (parseKg text = Option.none ↔
      ∀ i, tryKgAt ((commaToDot (normalizeTextL text.data)).drop i) = Option.none) ∧
    parseKg "Weight: 2,350 KG" = some (47/20) ∧
    parseKg "no unit here" = Option.none := by
  refine ⟨?_, ?_, by decide, by decide⟩
  · intro v
    unfold parseKg
    rcases hf : findKgMatch (commaToDot (normalizeTextL text.data)) with _ | cap
    · simp only [hf]
      constructor
      · intro h; cases h
      · rintro ⟨i, cap, hi, -, hb⟩
        have := (findKgMatch_some_iff (commaToDot (normalizeTextL text.data)) cap).mpr
          ⟨i, hi, hb⟩
        rw [hf] at this
        cases this
    · simp only [hf, Option.some.injEq]
      constructor
      · intro h
        obtain ⟨i, hi, hb⟩ :=
          (findKgMatch_some_iff (commaToDot (normalizeTextL text.data)) cap).mp hf
        exact ⟨i, cap, hi, h, hb⟩
      · rintro ⟨i, cap', hi, hv, hb⟩
        have := (findKgMatch_some_iff (commaToDot (normalizeTextL text.data)) cap').mpr
          ⟨i, hi, hb⟩
        rw [hf, Option.some.injEq] at this
        rw [this]
        exact hv
  · unfold parseKg
    rcases hf : findKgMatch (commaToDot (normalizeTextL text.data)) with _ | cap
    · simp only [hf]
      constructor
      · intro _
        exact (findKgMatch_none_iff _).mp hf
      · intro _
        trivial
    · simp only [hf]
      constructor
      · intro h; cases h
      · intro hall
        rw [(findKgMatch_none_iff _).mpr hall] at hf
        cases hf

/-- Witness for C3: the match on "Weight: 2,350 KG" sits at index 8 of the
normalized text "WEIGHT: 2.350 KG", captures "2.350", and no earlier
start position matches. -/
theorem claim_C3_witness : parseKg "Weight: 2,350 KG" = some (47/20) :=
  ((claim_C3 "Weight: 2,350 KG").1 (47/20)).mpr
    ⟨8, ['2', '.', '3', '5', '0'], by decide, by decide, by decide⟩

/-! ## C2: the fuzzy pass -/

theorem fuzzyFold_snd (n : List Char) (tk : List (List Char)) (p : Product) :
    ∀ (ks : List String) (acc : Option Product × ℚ),
      (List.foldl (fun a k =>
        if a.2 < keywordScore n tk (normalizeTextL k.data) then
          (some p, keywordScore n tk (normalizeTextL k.data))
        else a) acc ks).2 =
      List.foldl max acc.2 (ks.map (fun k => keywordScore n tk (normalizeTextL k.data))) := by
  intro ks
  induction ks with
  | nil => intro acc; rfl
  | cons k ks ih =>
    intro acc
    simp only [List.foldl_cons, List.map_cons]
    rw [ih]
    congr 1
    by_cases h : acc.2 < keywordScore n tk (normalizeTextL k.data)
    · rw [if_pos h]
      exact (max_eq_right (le_of_lt h)).symm
    · rw [if_neg h]
      exact (max_eq_left (le_of_not_lt h)).symm

theorem fuzzyBest_snd (n : List Char) (tk : List (List Char)) :
    ∀ (ps : List Product) (acc : Option Product × ℚ),
      (ps.foldl (fuzzyStep n tk) acc).2 = List.foldl max acc.2 (pairScores n tk ps) := by
  intro ps
  induction ps with
  | nil => intro acc; simp [pairScores]
  | cons p ps ih =>
    intro acc
    simp only [List.foldl_cons, pairScores, List.flatMap_cons, List.foldl_append]
    rw [ih]
    simp only [pairScores]
    congr 1
    exact fuzzyFold_snd n tk p p.keywords acc

theorem fuzzyBest_eq_listMax (n : List Char) (tk : List (List Char)) (ps : List Product) :
    (fuzzyBest n tk ps).2 = listMax (pairScores n tk ps) := by
  unfold fuzzyBest listMax
  exact fuzzyBest_snd n tk ps (Option.none, 0)

/-- Ownership invariant of the Step-B accumulator: a named best product
lies in the catalog and one of its keywords scores exactly the running
best score. -/
def ownsScore (n : List Char) (tk : List (List Char)) (ps : List Product)
    (s : Option Product × ℚ) : Prop :=
  ∀ q, s.1 = some q → q ∈ ps ∧
    ∃ k ∈ q.keywords, keywordScore n tk (normalizeTextL k.data) = s.2

theorem fuzzyFold_own (n : List Char) (tk : List (List Char)) (p : Product)
    (ps : List Product) (hp : p ∈ ps) :
    ∀ (ks : List String), (∀ k ∈ ks, k ∈ p.keywords) →
      ∀ acc, ownsScore n tk ps acc →
        ownsScore n tk ps (List.foldl (fun a k =>
          if a.2 < keywordScore n tk (normalizeTextL k.data) then
            (some p, keywordScore n tk (normalizeTextL k.data))
          else a) acc ks) := by
  intro ks
  induction ks with
  | nil => intro _ acc hacc; exact hacc
  | cons k ks ih =>
    intro hks acc hacc
    simp only [List.foldl_cons]
    refine ih (fun x hx => hks x (List.mem_cons_of_mem k hx)) _ ?_
    by_cases h : acc.2 < keywordScore n tk (normalizeTextL k.data)
    · rw [if_pos h]
      intro q hq
      rw [Option.some.injEq] at hq
      subst hq
      exact ⟨hp, k, hks k (List.mem_cons_self k ks), rfl⟩
    · rw [if_neg h]
      exact hacc

theorem fuzzyBest_own (n : List Char) (tk : List (List Char)) (ps : List Product) :
    ∀ (sub : List Product), (∀ x ∈ sub, x ∈ ps) →
      ∀ acc, ownsScore n tk ps acc →
        ownsScore n tk ps (sub.foldl (fuzzyStep n tk) acc) := by
  intro sub
  induction sub with
  | nil => intro _ acc hacc; exact hacc
  | cons p sub ih =>
    intro hsub acc hacc
    simp only [List.foldl_cons]
    refine ih (fun x hx => hsub x (List.mem_cons_of_mem p hx)) _ ?_
    unfold fuzzyStep
    exact fuzzyFold_own n tk p ps (hsub p (List.mem_cons_self p sub)) p.keywords
      (fun _ hk => hk) acc hacc

theorem fuzzyBest_ownsScore (n : List Char) (tk : List (List Char)) (ps : List Product) :
    ownsScore n tk ps (fuzzyBest n tk ps) := by
  unfold fuzzyBest
  refine fuzzyBest_own n tk ps ps (fun _ h => h) _ ?_
  intro q hq
  cases hq

theorem fuzzyFold_pos (n : List Char) (tk : List (List Char)) (p : Product) :
    ∀ (ks : List String) (acc : Option Product × ℚ),
      (0 < acc.2 → acc.1.isSome) →
      (0 < (List.foldl (fun a k =>
          if a.2 < keywordScore n tk (normalizeTextL k.data) then
            (some p, keywordScore n tk (normalizeTextL k.data))
          else a) acc ks).2 →
        (List.foldl (fun a k =>
          if a.2 < keywordScore n tk (normalizeTextL k.data) then
            (some p, keywordScore n tk (normalizeTextL k.data))
          else a) acc ks).1.isSome) := by
  intro ks
  induction ks with
  | nil => intro acc h; exact h
  | cons k ks ih =>
    intro acc h
    simp only [List.foldl_cons]
    refine ih _ ?_
    by_cases hc : acc.2 < keywordScore n tk (normalizeTextL k.data)
    · rw [if_pos hc]
      intro _
      rfl
    · rw [if_neg hc]
      exact h

theorem fuzzyBest_pos (n : List Char) (tk : List (List Char)) (ps : List Product) :
    0 < (fuzzyBest n tk ps).2 → ((fuzzyBest n tk ps).1).isSome := by
  unfold fuzzyBest
  generalize hacc : ((Option.none : Option Product), (0 : ℚ)) = acc
  have hbase : 0 < acc.2 → acc.1.isSome := by
    rw [← hacc]
    intro h
    exact absurd h (by norm_num)
  clear hacc
  induction ps generalizing acc with
  | nil => exact hbase
  | cons p ps ih =>
    simp only [List.foldl_cons]
    refine ih _ ?_
    unfold fuzzyStep
    exact fuzzyFold_pos n tk p p.keywords acc hbase

/-- C2: when the exact pass finds nothing, Step B scores every
(product, keyword) pair against the full normalized text and every token
with `similarity = 1 - levenshtein/maxLen` (two empty strings score 1),
tracks the maximum over all pairs, and returns the product owning that
maximum with method `fuzzy` exactly when it reaches 0.75, else no match;
on catalog `[A(FOO), B(BAR)]` and text "some F0O label" the best score is
2/3 < 3/4 and the result is none. -/
theorem claim_C2 (text : String) (products : List Product)
    (hmiss : products.find? (keywordHit (normalizeTextL text.data)) = Option.none) :
    (matchProduct text products = fuzzyResult text products) ∧
    similarity [] [] = 1 ∧
    ((fuzzyBest (normalizeTextL text.data) (tokenize (normalizeTextL text.data))
        products).2 =
      listMax (pairScores (normalizeTextL text.data)
        (tokenize (normalizeTextL text.data)) products)) ∧
    (FUZZY_THRESHOLD ≤ (fuzzyBest (normalizeTextL text.data)
        (tokenize (normalizeTextL text.data)) products).2 →
      ∃ p, matchProduct text products = ⟨some p, MatchMethod.fuzzy⟩ ∧ p ∈ products ∧
        ∃ k ∈ p.keywords,
          keywordScore (normalizeTextL text.data) (tokenize (normalizeTextL text.data))
              (normalizeTextL k.data) =
            (fuzzyBest (normalizeTextL text.data)
              (tokenize (normalizeTextL text.data)) products).2) ∧
    ((fuzzyBest (normalizeTextL text.data) (tokenize (normalizeTextL text.data))
        products).2 < FUZZY_THRESHOLD →
      matchProduct text products = ⟨Option.none, MatchMethod.none⟩) ∧
    matchProduct "some F0O label" catalogAB = ⟨Option.none, MatchMethod.none⟩ ∧
    listMax (pairScores (normalizeTextL "some F0O label".data)
      (tokenize (normalizeTextL "some F0O label".data)) catalogAB) = 2/3 := by
  have hres := matchProduct_of_find_none text products hmiss
  refine ⟨hres, by decide, fuzzyBest_eq_listMax _ _ _, ?_, ?_, by decide, by decide⟩
  · intro hth
    have hpos : 0 < (fuzzyBest (normalizeTextL text.data)
        (tokenize (normalizeTextL text.data)) products).2 :=
      lt_of_lt_of_le (by norm_num [FUZZY_THRESHOLD]) hth
    have hsome := fuzzyBest_pos _ _ _ hpos
    obtain ⟨p, hp⟩ := Option.isSome_iff_exists.mp hsome
    obtain ⟨hmem, k, hk, hscore⟩ := fuzzyBest_ownsScore
      (normalizeTextL text.data) (tokenize (normalizeTextL text.data)) products p hp
    refine ⟨p, ?_, hmem, k, hk, hscore⟩
    rw [hres]
    unfold fuzzyResult
    simp only [hp, if_pos hth]
  · intro hlt
    rw [hres]
    unfold fuzzyResult
    rcases hb : (fuzzyBest (normalizeTextL text.data)
        (tokenize (normalizeTextL text.data)) products).1 with _ | p
    · simp only [hb]
    · simp only [hb, if_neg (not_le_of_lt hlt)]

/-- Witness for C2 at the §8 near-miss example: exact pass misses, best
fuzzy score 2/3 stays below the threshold, result is none. -/
theorem claim_C2_witness :
    matchProduct "some F0O label" catalogAB = ⟨Option.none, MatchMethod.none⟩ :=
  (claim_C2 "some F0O label" catalogAB (by decide)).2.2.2.2.2.1

/-! ## C9: the stability detector -/

theorem detRun_cons (r : Bool) (t : Nat) (s : SmallSample)
    (ticks : List (Nat × SmallSample)) (st : DetState) :
    detRun r ((t, s) :: ticks) st = detRun r ticks (detTick r t s st) := rfl

theorem detTick_locked (r : Bool) (now : Nat) (sample : SmallSample) (st : DetState)
    (h : st.locked = true) : detTick r now sample st = st := by
  unfold detTick
  rw [h]
  simp

theorem detTick_cooldown (r : Bool) (now : Nat) (sample : SmallSample) (st : DetState)
    (h : now < st.cooldownUntil) : detTick r now sample st = st := by
  unfold detTick
  rw [decide_eq_true h]
  simp

theorem detRun_locked (r : Bool) (ticks : List (Nat × SmallSample)) (st : DetState)
    (h : st.locked = true) : detRun r ticks st = st := by
  induction ticks with
  | nil => rfl
  | cons t ticks ih =>
    rw [detRun_cons, detTick_locked r t.1 t.2 st h]
    exact ih

theorem detRun_stable (t1 : Nat) :
    ∀ (rest : List (Nat × SmallSample)) (tprev : Nat) (sprev : SmallSample),
      List.Chain' (fun a b => a.1 < b.1) ((tprev, sprev) :: rest) →
      List.Chain' (fun a b => frameDiff a.2 b.2 < DIFF_THRESHOLD) ((tprev, sprev) :: rest) →
      t1 ≤ tprev → tprev ≤ t1 + STABLE_MS →
      t1 + STABLE_MS < (((tprev, sprev) :: rest).getLast (List.cons_ne_nil _ _)).1 →
      (detRun true rest ⟨some sprev, some t1, false, 0, 0⟩).captures = 1 ∧
      (detRun true rest ⟨some sprev, some t1, false, 0, 0⟩).locked = true := by
  intro rest
  induction rest with
  | nil =>
    intro tprev sprev _ _ _ hle hlast
    simp only [List.getLast_singleton] at hlast
    omega
  | cons ts rest ih =>
    intro tprev sprev hinc hdiff hge hle hlast
    obtain ⟨t2, s2⟩ := ts
    have h12 := (List.chain'_cons.mp hinc).1
    have hd12 := (List.chain'_cons.mp hdiff).1
    simp only at h12 hd12
    rw [detRun_cons]
    by_cases htr : STABLE_MS < t2 - t1
    · have hstep : detTick true t2 s2 ⟨some sprev, some t1, false, 0, 0⟩ =
          ⟨some s2, some t1, true, 0, 1⟩ := by
        unfold detTick
        simp [hd12, htr]
      rw [hstep, detRun_locked true rest _ rfl]
      exact ⟨rfl, rfl⟩
    · have hstep : detTick true t2 s2 ⟨some sprev, some t1, false, 0, 0⟩ =
          ⟨some s2, some t1, false, 0, 0⟩ := by
        unfold detTick
        simp [hd12, htr]
      rw [hstep]
      refine ih t2 s2 (List.chain'_cons.mp hinc).2 (List.chain'_cons.mp hdiff).2
        (by omega) (by omega) ?_
      rwa [List.getLast_cons (List.cons_ne_nil _ _)] at hlast

/-- C9 (modelled from the spec, §4.5): ticks are suppressed while the
trigger lock is held and during the cooldown window; and a synthetic
sample sequence whose consecutive diffs stay below 12 while the engine is
ready, running from a fresh detector for more than 500 ms past the start
of the stability timer, acquires the lock and invokes exactly one capture
— and every further tick before `completion + 800 ms` leaves the detector
unchanged, so no second capture can occur until the cooldown elapses. -/
theorem claim_C9 :
    (∀ (r : Bool) (now : Nat) (sample : SmallSample) (st : DetState),
      st.locked = true → detTick r now sample st = st) ∧
    (∀ (r : Bool) (now : Nat) (sample : SmallSample) (st : DetState),
      now < st.cooldownUntil → detTick r now sample st = st) ∧
    (∀ (t0 t1 : Nat) (s0 s1 : SmallSample) (rest : List (Nat × SmallSample)),
      List.Chain' (fun a b => a.1 < b.1) ((t0, s0) :: (t1, s1) :: rest) →
      List.Chain' (fun a b => frameDiff a.2 b.2 < DIFF_THRESHOLD)
        ((t0, s0) :: (t1, s1) :: rest) →
      t1 + STABLE_MS < ((((t0, s0) :: (t1, s1) :: rest)).getLast (List.cons_ne_nil _ _)).1 →
      (detRun true ((t0, s0) :: (t1, s1) :: rest) DetState.start).captures = 1 ∧
      (detRun true ((t0, s0) :: (t1, s1) :: rest) DetState.start).locked = true) ∧
    (∀ (tc : Nat) (st : DetState) (ticks : List (Nat × SmallSample)),
      (∀ t ∈ ticks, t.1 < tc + COOLDOWN_MS) →
      detRun true ticks (detComplete tc st) = detComplete tc st) := by
  refine ⟨detTick_locked, detTick_cooldown, ?_, ?_⟩
  · intro t0 t1 s0 s1 rest hinc hdiff hlast
    have hd01 := (List.chain'_cons.mp hdiff).1
    simp only at hd01
    have hstep0 : detTick true t0 s0 DetState.start =
        ⟨some s0, Option.none, false, 0, 0⟩ := by
      unfold detTick DetState.start
      simp
    have hstep1 : detTick true t1 s1 ⟨some s0, Option.none, false, 0, 0⟩ =
        ⟨some s1, some t1, false, 0, 0⟩ := by
      unfold detTick
      simp [hd01]
    rw [detRun_cons, hstep0, detRun_cons, hstep1]
    refine detRun_stable t1 rest t1 s1 (List.chain'_cons.mp hinc).2
      (List.chain'_cons.mp hdiff).2 (le_refl t1) (by omega) ?_
    rwa [List.getLast_cons (List.cons_ne_nil _ _)] at hlast
  · intro tc st ticks hall
    induction ticks with
    | nil => rfl
    | cons t ticks ih =>
      rw [detRun_cons, detTick_cooldown true t.1 t.2 _ (hall t (List.mem_cons_self t ticks))]
      exact ih (fun x hx => hall x (List.mem_cons_of_mem t hx))

/-- Witness for C9: seven identical samples 120 ms apart (diff 0) with the
engine ready trigger exactly one capture, at the 720 ms tick. -/
theorem claim_C9_witness :
    (detRun true [(0, stillSample), (120, stillSample), (240, stillSample),
      (360, stillSample), (480, stillSample), (600, stillSample), (720, stillSample)]
      DetState.start).captures = 1 ∧
    (detRun true [(0, stillSample), (120, stillSample), (240, stillSample),
      (360, stillSample), (480, stillSample), (600, stillSample), (720, stillSample)]
      DetState.start).locked = true :=
  (claim_C9.2.2.1) 0 120 stillSample stillSample
    [(240, stillSample), (360, stillSample), (480, stillSample), (600, stillSample),
     (720, stillSample)]
    (by simp only [List.chain'_cons, List.chain'_singleton, and_true]
        exact ⟨by decide, by decide, by decide, by decide, by decide, by decide⟩)
    (by simp only [List.chain'_cons, List.chain'_singleton, and_true]
        exact ⟨by decide, by decide, by decide, by decide, by decide, by decide⟩)
    (by decide)

/-! ## C8: idempotence of normalization -/

theorem jsToUpper_spec (c : Char) :
    (c, jsToUpper c) ∈ upperPairs ∨ jsToUpper c = c := by
  unfold jsToUpper
  split <;> simp [upperPairs]

theorem nfdChar_spec (c : Char) :
    (c, nfdChar c) ∈ nfdPairs ∨ nfdChar c = [c] := by
  unfold nfdChar
  split <;> simp [nfdPairs]

theorem charNorm_mark (c : Char) (h : isMark c = true) : charNorm c = [] := by
  have hup : jsToUpper c = c := by
    rcases jsToUpper_spec c with hp | he
    · fin_cases hp <;> exact absurd h (by decide)
    · exact he
  have hnfd : nfdChar c = [c] := by
    rcases nfdChar_spec c with hp | he
    · fin_cases hp <;> exact absurd h (by decide)
    · exact he
  unfold charNorm stripMarks
  rw [hup, hnfd]
  simp [h]

theorem charNorm_nomark (c : Char) (h : isMark c = false) :
    charNorm c = [baseChar c] ∧ jsToUpper (baseChar c) = baseChar c ∧
    nfdChar (baseChar c) = [baseChar c] ∧ isMark (baseChar c) = false ∧
    isWs (baseChar c) = isWs c := by
  rcases jsToUpper_spec c with hp | hup
  · fin_cases hp <;> exact ⟨by decide, by decide, by decide, by decide, by decide⟩
  · rcases nfdChar_spec c with hq | hnfd
    · fin_cases hq <;> exact ⟨by decide, by decide, by decide, by decide, by decide⟩
    · have hcn : charNorm c = [c] := by
        unfold charNorm stripMarks
        rw [hup, hnfd]
        simp [h]
      have hbase : baseChar c = c := by
        unfold baseChar
        rw [hcn]
        rfl
      rw [hbase, hcn]
      exact ⟨rfl, hup, hnfd, h, rfl⟩

theorem pipeline_eq (l : List Char) :
    stripMarks (nfdStr (upperStr l)) = l.flatMap charNorm := by
  induction l with
  | nil => rfl
  | cons c t ih =>
    simp only [upperStr, nfdStr, stripMarks, List.map_cons, List.flatMap_cons,
      List.filter_append] at ih ⊢
    rw [ih]
    rfl

theorem flatMap_charNorm_eq_map (l : List Char) (h : noMarks l = true) :
    l.flatMap charNorm = l.map baseChar := by
  induction l with
  | nil => rfl
  | cons c t ih =>
    rw [noMarks, List.all_cons, Bool.and_eq_true] at h
    simp only [List.flatMap_cons, List.map_cons]
    rw [(charNorm_nomark c (by simpa using h.1)).1, ih h.2]
    rfl

theorem mem_flatMap_charNorm (l : List Char) (d : Char)
    (hd : d ∈ l.flatMap charNorm) :
    jsToUpper d = d ∧ nfdChar d = [d] ∧ isMark d = false := by
  rw [List.mem_flatMap] at hd
  obtain ⟨c, -, hdc⟩ := hd
  by_cases hm : isMark c
  · rw [charNorm_mark c hm] at hdc
    cases hdc
  · have hnm := charNorm_nomark c (by simpa using hm)
    rw [hnm.1, List.mem_singleton] at hdc
    subst hdc
    exact ⟨hnm.2.1, hnm.2.2.1, hnm.2.2.2.1⟩

theorem collapseAux_cons_ws_true (c : Char) (t : List Char) (h : isWs c = true) :
    collapseAux true (c :: t) = collapseAux true t := by
  simp [collapseAux, h]

theorem collapseAux_cons_ws_false (c : Char) (t : List Char) (h : isWs c = true) :
    collapseAux false (c :: t) = ' ' :: collapseAux true t := by
  simp [collapseAux, h]

theorem collapseAux_cons_nonws (b : Bool) (c : Char) (t : List Char) (h : isWs c = false) :
    collapseAux b (c :: t) = c :: collapseAux false t := by
  simp [collapseAux, h]

theorem collapseAux_true_leadOk (l : List Char) :
    leadOk (collapseAux true l) = true := by
  induction l with
  | nil => rfl
  | cons c t ih =>
    by_cases h : isWs c
    · rw [collapseAux_cons_ws_true c t h]
      exact ih
    · rw [collapseAux_cons_nonws true c t (by simpa using h)]
      unfold leadOk
      simp [h]

theorem wsOk_cons_nonWs (c : Char) (t : List Char) (hc : isWs c = false)
    (ht : wsOk t = true) : wsOk (c :: t) = true := by
  cases t with
  | nil => simp [wsOk, hc]
  | cons d t' =>
    unfold wsOk
    simp [hc, ht]

theorem wsOk_cons_space (t : List Char) (ht : wsOk t = true) (hl : leadOk t = true) :
    wsOk (' ' :: t) = true := by
  cases t with
  | nil => decide
  | cons d t' =>
    have hd : isWs d = false := by
      unfold leadOk at hl
      simpa using hl
    unfold wsOk
    simp [hd, ht]

theorem collapseAux_wsOk (l : List Char) : ∀ b, wsOk (collapseAux b l) = true := by
  induction l with
  | nil => intro b; rfl
  | cons c t ih =>
    intro b
    by_cases h : isWs c
    · cases b
      · rw [collapseAux_cons_ws_false c t (by simpa using h)]
        exact wsOk_cons_space _ (ih true) (collapseAux_true_leadOk t)
      · rw [collapseAux_cons_ws_true c t (by simpa using h)]
        exact ih true
    · rw [collapseAux_cons_nonws b c t (by simpa using h)]
      exact wsOk_cons_nonWs c _ (by simpa using h) (ih false)

theorem collapseAux_fix (l : List Char) (h : wsOk l = true) :
    collapseAux false l = l := by
  induction l with
  | nil => rfl
  | cons c t ih =>
    cases t with
    | nil =>
      by_cases hc : isWs c
      · have hsp : c = ' ' := by
          unfold wsOk at h
          simp [hc] at h
          exact h
        subst hsp
        decide
      · rw [collapseAux_cons_nonws false c [] (by simpa using hc)]
        rfl
    | cons d t' =>
      unfold wsOk at h
      rw [Bool.and_eq_true, Bool.and_eq_true] at h
      obtain ⟨⟨h1, h2⟩, h3⟩ := h
      by_cases hc : isWs c
      · have hsp : c = ' ' := by
          simp [hc] at h1
          exact h1
        have hd : isWs d = false := by
          simp [hc] at h2
          exact h2
        subst hsp
        have hrec := ih h3
        rw [collapseAux_cons_nonws false d t' hd] at hrec
        have ht' : collapseAux false t' = t' := by
          exact (List.cons.injEq d _ d t').mp hrec |>.2
        rw [collapseAux_cons_ws_false ' ' (d :: t') (by decide),
          collapseAux_cons_nonws true d t' hd, ht']
      · rw [collapseAux_cons_nonws false c (d :: t') (by simpa using hc), ih h3]

theorem leadOk_dropWhile (l : List Char) : leadOk (l.dropWhile isWs) = true := by
  induction l with
  | nil => rfl
  | cons c t ih =>
    rw [List.dropWhile_cons]
    by_cases h : isWs c
    · rw [if_pos h]
      exact ih
    · rw [if_neg h]
      unfold leadOk
      simp [h]

theorem dropWhile_id_of_leadOk (m : List Char) (h : leadOk m = true) :
    m.dropWhile isWs = m := by
  cases m with
  | nil => rfl
  | cons c t =>
    unfold leadOk at h
    rw [List.dropWhile_cons, if_neg (by simp at h; simp [h])]

theorem leadOk_reverse_eq_lastOk (l : List Char) : leadOk l.reverse = lastOk l := by
  rcases List.eq_nil_or_concat l with rfl | ⟨u, a, rfl⟩
  · rfl
  · rw [List.concat_eq_append, show (u ++ [a]).reverse = a :: u.reverse by simp]
    unfold leadOk lastOk
    rw [List.getLast?_concat]

theorem dropWhile_getLast? (p : Char → Bool) (l : List Char) :
    l.dropWhile p = [] ∨ (l.dropWhile p).getLast? = l.getLast? := by
  induction l with
  | nil => left; rfl
  | cons c t ih =>
    rw [List.dropWhile_cons]
    by_cases h : p c
    · rw [if_pos h]
      cases t with
      | nil => left; rfl
      | cons d t' =>
        rcases ih with h1 | h2
        · left; exact h1
        · right
          rw [h2, List.getLast?_cons_cons]
    · rw [if_neg h]
      right
      rfl

theorem lastOk_dropWhile (l : List Char) (h : lastOk l = true) :
    lastOk (l.dropWhile isWs) = true := by
  rcases dropWhile_getLast? isWs l with he | heq
  · rw [he]
    rfl
  · unfold lastOk at h ⊢
    rw [heq]
    exact h

theorem trimWs_leadOk (l : List Char) : leadOk (trimWs l) = true := by
  unfold trimWs trimRight trimLeft
  rw [leadOk_reverse_eq_lastOk]
  refine lastOk_dropWhile _ ?_
  rw [← leadOk_reverse_eq_lastOk, List.reverse_reverse]
  exact leadOk_dropWhile l

theorem trimWs_lastOk (l : List Char) : lastOk (trimWs l) = true := by
  unfold trimWs trimRight trimLeft
  rw [← leadOk_reverse_eq_lastOk, List.reverse_reverse]
  exact leadOk_dropWhile _

theorem trim_fix (l : List Char) (h1 : leadOk l = true) (h2 : lastOk l = true) :
    trimWs l = l := by
  unfold trimWs trimRight trimLeft
  rw [dropWhile_id_of_leadOk l h1]
  rw [dropWhile_id_of_leadOk l.reverse (by rw [leadOk_reverse_eq_lastOk]; exact h2)]
  exact List.reverse_reverse l

theorem mem_trimWs (l : List Char) (c : Char) (h : c ∈ trimWs l) : c ∈ l := by
  unfold trimWs trimRight trimLeft at h
  rw [List.mem_reverse] at h
  have h2 := (List.dropWhile_sublist (l := (l.dropWhile isWs).reverse) isWs).mem h
  rw [List.mem_reverse] at h2
  exact (List.dropWhile_sublist isWs).mem h2

theorem noMarks_trimWs (l : List Char) (h : noMarks l = true) :
    noMarks (trimWs l) = true := by
  unfold noMarks at h ⊢
  rw [List.all_eq_true] at h ⊢
  intro c hc
  exact h c (mem_trimWs l c hc)

theorem mem_collapseAux (l : List Char) :
    ∀ (b : Bool) (d : Char), d ∈ collapseAux b l → d = ' ' ∨ d ∈ l := by
  induction l with
  | nil => intro b d h; cases h
  | cons c t ih =>
    intro b d h
    by_cases hc : isWs c
    · cases b
      · rw [collapseAux_cons_ws_false c t (by simpa using hc)] at h
        rcases List.mem_cons.mp h with rfl | h2
        · exact Or.inl rfl
        · rcases ih true d h2 with h3 | h3
          · exact Or.inl h3
          · exact Or.inr (List.mem_cons_of_mem c h3)
      · rw [collapseAux_cons_ws_true c t (by simpa using hc)] at h
        rcases ih true d h with h3 | h3
        · exact Or.inl h3
        · exact Or.inr (List.mem_cons_of_mem c h3)
    · rw [collapseAux_cons_nonws b c t (by simpa using hc)] at h
      rcases List.mem_cons.mp h with rfl | h2
      · exact Or.inr (List.mem_cons_self d t)
      · rcases ih false d h2 with h3 | h3
        · exact Or.inl h3
        · exact Or.inr (List.mem_cons_of_mem c h3)

theorem collapseWs_leadOk (l : List Char) (h : leadOk l = true) :
    leadOk (collapseWs l) = true := by
  cases l with
  | nil => rfl
  | cons c t =>
    unfold leadOk at h
    unfold collapseWs
    rw [collapseAux_cons_nonws false c t (by simp at h; simp [h])]
    unfold leadOk
    exact h

theorem collapseAux_concat (l : List Char) (d : Char) (hd : isWs d = false) :
    ∀ b, ∃ u, collapseAux b (l ++ [d]) = u ++ [d] := by
  induction l with
  | nil =>
    intro b
    refine ⟨[], ?_⟩
    rw [List.nil_append, collapseAux_cons_nonws b d [] hd]
    rfl
  | cons c t ih =>
    intro b
    rw [List.cons_append]
    by_cases hc : isWs c
    · cases b
      · obtain ⟨u, hu⟩ := ih true
        refine ⟨' ' :: u, ?_⟩
        rw [collapseAux_cons_ws_false c _ (by simpa using hc), hu]
        rfl
      · obtain ⟨u, hu⟩ := ih true
        refine ⟨u, ?_⟩
        rw [collapseAux_cons_ws_true c _ (by simpa using hc), hu]
    · obtain ⟨u, hu⟩ := ih false
      refine ⟨c :: u, ?_⟩
      rw [collapseAux_cons_nonws b c _ (by simpa using hc), hu]
      rfl

theorem collapseWs_lastOk (l : List Char) (h : lastOk l = true) :
    lastOk (collapseWs l) = true := by
  rcases List.eq_nil_or_concat l with rfl | ⟨u, a, rfl⟩
  · rfl
  · rw [List.concat_eq_append] at h ⊢
    unfold lastOk at h
    rw [List.getLast?_concat] at h
    have ha : isWs a = false := by simpa using h
    obtain ⟨v, hv⟩ := collapseAux_concat u a ha false
    unfold collapseWs
    rw [hv]
    unfold lastOk
    rw [List.getLast?_concat]
    simpa using ha

theorem map_id_on (f : Char → Char) :
    ∀ l : List Char, (∀ c ∈ l, f c = c) → l.map f = l := by
  intro l
  induction l with
  | nil => intro _; rfl
  | cons c t ih =>
    intro h
    rw [List.map_cons, h c (List.mem_cons_self c t),
      ih (fun x hx => h x (List.mem_cons_of_mem c hx))]

theorem flatMap_id_on :
    ∀ l : List Char, (∀ c ∈ l, nfdChar c = [c]) → l.flatMap nfdChar = l := by
  intro l
  induction l with
  | nil => intro _; rfl
  | cons c t ih =>
    intro h
    rw [List.flatMap_cons, h c (List.mem_cons_self c t),
      ih (fun x hx => h x (List.mem_cons_of_mem c hx))]
    rfl

theorem filter_id_on (l : List Char) (h : ∀ c ∈ l, isMark c = false) :
    stripMarks l = l := by
  unfold stripMarks
  rw [List.filter_eq_self]
  intro c hc
  simp [h c hc]

theorem leadOk_cons (c : Char) (t : List Char) : leadOk (c :: t) = !isWs c := rfl

theorem lastOk_concat (u : List Char) (a : Char) : lastOk (u ++ [a]) = !isWs a := by
  unfold lastOk
  rw [List.getLast?_concat]

theorem normalizeTextL_idem (l : List Char) (h : noMarks l = true) :
    normalizeTextL (normalizeTextL l) = normalizeTextL l := by
  have hT := noMarks_trimWs l h
  have hw : stripMarks (nfdStr (upperStr (trimWs l))) = (trimWs l).map baseChar := by
    rw [pipeline_eq, flatMap_charNorm_eq_map _ hT]
  have h1 : normalizeTextL l = collapseWs ((trimWs l).map baseChar) := by
    unfold normalizeTextL
    rw [hw]
  have hwl : leadOk ((trimWs l).map baseChar) = true := by
    have hTl := trimWs_leadOk l
    rcases hE : trimWs l with _ | ⟨c, t⟩
    · rfl
    · rw [hE] at hTl hT
      rw [List.map_cons, leadOk_cons]
      have hc : isMark c = false := by
        rw [noMarks, List.all_cons, Bool.and_eq_true] at hT
        simpa using hT.1
      rw [(charNorm_nomark c hc).2.2.2.2]
      rw [leadOk_cons] at hTl
      exact hTl
  have hwr : lastOk ((trimWs l).map baseChar) = true := by
    have hTr := trimWs_lastOk l
    rcases List.eq_nil_or_concat (trimWs l) with hE | ⟨u, a, hE⟩
    · rw [hE]
      rfl
    · rw [List.concat_eq_append] at hE
      rw [hE] at hTr hT
      rw [hE, List.map_append, show List.map baseChar [a] = [baseChar a] from rfl,
        lastOk_concat]
      rw [lastOk_concat] at hTr
      have ha : isMark a = false := by
        rw [noMarks, List.all_eq_true] at hT
        have := hT a (by simp)
        simpa using this
      rw [(charNorm_nomark a ha).2.2.2.2]
      exact hTr
  have hrl := collapseWs_leadOk _ hwl
  have hrr := collapseWs_lastOk _ hwr
  have hrw : wsOk (collapseWs ((trimWs l).map baseChar)) = true := collapseAux_wsOk _ false
  have hchars : ∀ d ∈ collapseWs ((trimWs l).map baseChar),
      jsToUpper d = d ∧ nfdChar d = [d] ∧ isMark d = false := by
    intro d hd
    rcases mem_collapseAux _ false d hd with rfl | hdw
    · exact ⟨by decide, by decide, by decide⟩
    · rw [← flatMap_charNorm_eq_map _ hT] at hdw
      exact mem_flatMap_charNorm _ d hdw
  rw [h1]
  generalize hR : collapseWs ((trimWs l).map baseChar) = R at hrl hrr hrw hchars ⊢
  unfold normalizeTextL upperStr nfdStr
  rw [trim_fix R hrl hrr]
  rw [map_id_on jsToUpper R (fun c hc => (hchars c hc).1)]
  rw [flatMap_id_on R (fun c hc => (hchars c hc).2.1)]
  rw [filter_id_on R (fun c hc => (hchars c hc).2.2)]
  exact collapseAux_fix R hrw

/-- C8 counterexample: normalization is not idempotent as claimed for
every string.  On "̀ A" (a bare combining grave accent, a space, then A)
the first pass strips the mark after trimming has already run, exposing a
leading space that only the second pass trims away. -/
theorem claim_C8_cex :
    normalizeText (normalizeText "̀ A") ≠ normalizeText "̀ A" := by decide

/-- C8 (amended): normalization is idempotent on every string containing
no combining diacritical mark (U+0300–U+036F); the steps run in the order
trim, uppercase, NFD-decompose, strip marks, collapse whitespace, and on
mark-free input the composite is a fixed point of itself.  (On strings
with a bare combining mark at the edge of the trimmed region idempotence
can fail, because trimming runs before mark-stripping.) -/
theorem claim_C8 :
    (∀ l : List Char, noMarks l = true →
      normalizeTextL (normalizeTextL l) = normalizeTextL l) ∧
    (∀ s : String, noMarks s.data = true →
      normalizeText (normalizeText s) = normalizeText s) := by
  refine ⟨normalizeTextL_idem, ?_⟩
  intro s hs
  unfold normalizeText
  exact congrArg String.mk (normalizeTextL_idem s.data hs)

/-- Witness for C8 on a concrete mark-free string with accents,
mixed case and ragged whitespace. -/
theorem claim_C8_witness :
    noMarks "  hällo   wörld  ".data = true ∧
    normalizeText (normalizeText "  hällo   wörld  ") =
      normalizeText "  hällo   wörld  " :=
  ⟨by decide, claim_C8.2 "  hällo   wörld  " (by decide)⟩
